import Mathlib

/-!
Verification of the retrieval-and-answer pipeline of the knowledge
management system.  The Python source is embedded shallowly: strings are
lists of characters, floats are rationals, dictionaries are association
lists or functions, and each Python function of interest is translated
into an executable Lean definition that mirrors its control flow.

Files embedded here:
- app/models/vector_store_fixed.py  (query preprocessing, adaptive
  threshold, enhanced relevance scoring)
- app/utils/document_processor.py   (chunking strategies, deduplication)
- app/services/llm_service.py       (context assembly, truncation,
  retry logic, response cache)
-/

namespace KMS

/-- Python whitespace test restricted to the ASCII whitespace characters
recognised by str.strip, str.split and the regex class backslash-s. -/
def isWs (c : Char) : Bool :=
  c = ' ' || c = '\t' || c = '\n' || c = '\r' || c = '\x0b' || c = '\x0c'

/-- Python str.lower restricted to ASCII letters. -/
def lowerCh (c : Char) : Char :=
  if 'A' ≤ c ∧ c ≤ 'Z' then Char.ofNat (c.toNat + 32) else c

/-- Python str.lower applied characterwise. -/
def lowerStr (s : List Char) : List Char := s.map lowerCh

/-- Helper for pySplit: accumulates the current word (reversed). -/
def pySplitAux : List Char → List Char → List (List Char)
  | [], acc => if acc.isEmpty then [] else [acc.reverse]
  | c :: rest, acc =>
      if isWs c then
        if acc.isEmpty then pySplitAux rest [] else acc.reverse :: pySplitAux rest []
      else pySplitAux rest (c :: acc)

/-- Python str.split with no argument: split on runs of whitespace,
discarding empty pieces. -/
def pySplit (s : List Char) : List (List Char) := pySplitAux s []

/-- Drop leading whitespace, as the left half of Python str.strip. -/
def dropWs (s : List Char) : List Char := s.dropWhile (fun c => isWs c)

/-- Python str.strip: remove leading and trailing whitespace. -/
def stripWs (s : List Char) : List Char := ((dropWs s).reverse.dropWhile (fun c => isWs c)).reverse

/-- Replace every maximal run of whitespace by a single space; the flag
records whether the previous character was whitespace.  This is the
regex substitution of backslash-s-plus by a single space. -/
def collapseWsAux : Bool → List Char → List Char
  | _, [] => []
  | prevWs, c :: rest =>
      if isWs c then
        if prevWs then collapseWsAux true rest
        else ' ' :: collapseWsAux true rest
      else c :: collapseWsAux false rest

/-- The whitespace normalisation performed at the top of
EnhancedVectorStore preprocessing: re.sub of whitespace runs by a single
space, applied to the stripped query. -/
def normWs (s : List Char) : List Char := collapseWsAux false (stripWs s)

/-! ### Embedding of vector_store_fixed.py -/

/-- The abbreviation table of EnhancedVectorStore, in insertion order. -/
def abbreviations : List (List Char × List Char) :=
  [(("NHD".data), ("National Hydrography Dataset".data)),
   (("USGS".data), ("United States Geological Survey".data)),
   (("GIS".data), ("Geographic Information System".data))]

/-- One iteration of the abbreviation-expansion loop: if the abbreviation
occurs in the query and its expansion does not, append the expansion
after a single space. -/
def expandStep (q : List Char) (p : List Char × List Char) : List Char :=
  if p.1 <:+: q ∧ ¬ (p.2 <:+: q) then q ++ ' ' :: p.2 else q

/-- EnhancedVectorStore preprocessing of a query: collapse whitespace,
then expand each known abbreviation whose expansion is absent. -/
def preprocessQuery (q : List Char) : List Char :=
  abbreviations.foldl expandStep (normWs q)

/-- The comparison terms tested by the adaptive threshold. -/
def comparisonTerms : List (List Char) :=
  [("difference".data), ("compare".data), ("versus".data), ("vs".data)]

/-- Whether the lowercased query contains one of the comparison terms
as a substring, as in the Python any-term-in-query test. -/
def hasComparisonTerm (q : List Char) : Bool :=
  comparisonTerms.any fun t => decide (t <:+: lowerStr q)

/-- The adaptive threshold of EnhancedVectorStore: lower the base by
five hundredths (floor one tenth) for comparison queries, else by one
tenth (floor five hundredths) for queries of at most three tokens. -/
def adaptiveThreshold (query : List Char) (base : ℚ) : ℚ :=
  if hasComparisonTerm query then max (1/10) (base - 5/100)
  else if (pySplit query).length ≤ 3 then max (5/100) (base - 1/10)
  else base

/-- Score-to-similarity conversion used inside similarity search:
one minus the score when the score is at most one, else the reciprocal
of one plus the score. -/
def simFromScore (score : ℚ) : ℚ :=
  if score ≤ 1 then 1 - score else 1 / (1 + score)

/-- The set of lowercased whitespace tokens of a string, as the Python
expression set of str.lower().split(). -/
def tokenSet (s : List Char) : Finset (List Char) := (pySplit (lowerStr s)).toFinset

/-- Enhanced relevance of EnhancedVectorStore: similarity plus one tenth
of the keyword overlap ratio plus a five-hundredths bonus for documents
longer than one hundred characters, capped at one. -/
def calculateEnhancedRelevance (query document : List Char) (similarity : ℚ) : ℚ :=
  let overlap : ℚ := ((tokenSet query ∩ tokenSet document).card : ℚ) / ((tokenSet query).card : ℚ)
  let score := similarity + overlap * (1/10)
  let score := if document.length > 100 then score + 5/100 else score
  min 1 score

end KMS

namespace KMS

/-- Claim C3, counterexample: at base threshold one tenth, the comparison
query and the long query receive the same adaptive threshold (both one
tenth), so the comparison query is not strictly lower for every base. -/
theorem C3_counterexample :
    ¬ (adaptiveThreshold (("NHD vs USGS").data) (1/10)
        < adaptiveThreshold (("Explain the full history of hydrography standards in detail").data) (1/10)) := by
  have h1 : hasComparisonTerm (("NHD vs USGS").data) = true := by decide
  have h2 : hasComparisonTerm (("Explain the full history of hydrography standards in detail").data) = false := by
    decide
  have h3 : ¬ ((pySplit (("Explain the full history of hydrography standards in detail").data)).length ≤ 3) := by
    decide
  simp only [adaptiveThreshold, h1, h2, if_true, if_false, Bool.false_eq_true, h3]
  exact not_lt.mpr (le_max_left _ _)

/-- Claim C3, amended: for every base threshold strictly above one tenth,
the query with a comparison term receives a strictly lower adaptive
threshold than the long query without one. -/
theorem C3_amended_thm (b : ℚ) (hb : 1/10 < b) :
    adaptiveThreshold (("NHD vs USGS").data) b
      < adaptiveThreshold (("Explain the full history of hydrography standards in detail").data) b := by
  have h1 : hasComparisonTerm (("NHD vs USGS").data) = true := by decide
  have h2 : hasComparisonTerm (("Explain the full history of hydrography standards in detail").data) = false := by
    decide
  have h3 : ¬ ((pySplit (("Explain the full history of hydrography standards in detail").data)).length ≤ 3) := by
    decide
  simp only [adaptiveThreshold, h1, h2, if_true, if_false, Bool.false_eq_true, h3]
  exact max_lt hb (by linarith)

/-- Witness for C3_amended_thm at the configured default base threshold. -/
theorem C3_amended_witness :
    adaptiveThreshold (("NHD vs USGS").data) (3/20)
      < adaptiveThreshold (("Explain the full history of hydrography standards in detail").data) (3/20) :=
  C3_amended_thm (3/20) (by norm_num)

/-- Claim C6: the adaptive threshold equals max of one tenth and base
minus five hundredths when a comparison term occurs; else max of five
hundredths and base minus one tenth when the query has at most three
tokens; else the base, the comparison rule taking precedence. -/
theorem C6_thm (q : List Char) (b : ℚ) :
    (hasComparisonTerm q = true → adaptiveThreshold q b = max (1/10) (b - 5/100)) ∧
    (hasComparisonTerm q = false → (pySplit q).length ≤ 3 →
      adaptiveThreshold q b = max (5/100) (b - 1/10)) ∧
    (hasComparisonTerm q = false → 3 < (pySplit q).length → adaptiveThreshold q b = b) := by
  refine ⟨fun h => ?_, fun h hlen => ?_, fun h hlen => ?_⟩
  · simp [adaptiveThreshold, h]
  · simp [adaptiveThreshold, h, hlen]
  · simp [adaptiveThreshold, h, not_le.mpr hlen]

/-- Witness for C6_thm: the comparison rule fires on a three-token query
containing a comparison term, showing its precedence over the
short-query rule. -/
theorem C6_witness :
    adaptiveThreshold (("NHD vs USGS").data) (3/20) = max (1/10) (3/20 - 5/100) :=
  (C6_thm (("NHD vs USGS").data) (3/20)).1 (by decide)

end KMS

namespace KMS

/-- Claim C4: for any raw score, after the score-to-similarity conversion
the enhanced relevance equals the fused formula clamped to the unit
interval, and in particular always lies in the unit interval, provided
the tokenized query is non-empty. -/
theorem C4_thm (q d : List Char) (score : ℚ) (hq : pySplit (lowerStr q) ≠ []) :
    calculateEnhancedRelevance q d (simFromScore score)
      = max 0 (min 1 (simFromScore score
          + (1/10) * (((tokenSet q ∩ tokenSet d).card : ℚ) / ((tokenSet q).card : ℚ))
          + (if 100 < d.length then (5/100 : ℚ) else 0)))
      ∧ 0 ≤ calculateEnhancedRelevance q d (simFromScore score)
      ∧ calculateEnhancedRelevance q d (simFromScore score) ≤ 1 := by
  have hsim : 0 ≤ simFromScore score := by
    unfold simFromScore
    split
    · linarith
    · next h =>
        have h1 : (0:ℚ) < 1 + score := by linarith [not_le.mp h]
        exact le_of_lt (div_pos one_pos h1)
  have hov : 0 ≤ ((tokenSet q ∩ tokenSet d).card : ℚ) / ((tokenSet q).card : ℚ) := by positivity
  have hbonus : (0:ℚ) ≤ (if 100 < d.length then (5/100 : ℚ) else 0) := by split <;> norm_num
  have hinner : 0 ≤ simFromScore score
      + (1/10) * (((tokenSet q ∩ tokenSet d).card : ℚ) / ((tokenSet q).card : ℚ))
      + (if 100 < d.length then (5/100 : ℚ) else 0) := by
    have := mul_nonneg (by norm_num : (0:ℚ) ≤ 1/10) hov
    linarith
  have hval : calculateEnhancedRelevance q d (simFromScore score)
      = min 1 (simFromScore score
          + (1/10) * (((tokenSet q ∩ tokenSet d).card : ℚ) / ((tokenSet q).card : ℚ))
          + (if 100 < d.length then (5/100 : ℚ) else 0)) := by
    simp only [calculateEnhancedRelevance]
    split <;> · congr 1; ring
  refine ⟨?_, ?_, ?_⟩
  · rw [hval, max_eq_right (le_min (by norm_num) hinner)]
  · rw [hval]; exact le_min (by norm_num) hinner
  · rw [hval]; exact min_le_left _ _

/-- Witness for C4_thm at a concrete query, document and raw score. -/
theorem C4_witness :
    calculateEnhancedRelevance (("nhd").data) (("water data").data) (simFromScore (1/2))
      = max 0 (min 1 (simFromScore (1/2)
          + (1/10) * (((tokenSet (("nhd").data) ∩ tokenSet (("water data").data)).card : ℚ)
              / ((tokenSet (("nhd").data)).card : ℚ))
          + (if 100 < (("water data").data).length then (5/100 : ℚ) else 0)))
      ∧ 0 ≤ calculateEnhancedRelevance (("nhd").data) (("water data").data) (simFromScore (1/2))
      ∧ calculateEnhancedRelevance (("nhd").data) (("water data").data) (simFromScore (1/2)) ≤ 1 :=
  C4_thm (("nhd").data) (("water data").data) (1/2) (by decide)

end KMS

namespace KMS

/-! ### Embedding of document_processor.py deduplication -/

/-- DocumentProcessor is_duplicate: hash the content; report true and
keep the state when the hash was seen, else record the hash and report
false.  The hash function is a parameter; the source uses SHA-256,
which the spec calls strong and collision-resistant, so the theorems
assume injectivity. -/
def isDuplicate {H : Type} [DecidableEq H] (h : List Char → H) (st : Finset H)
    (content : List Char) : Bool × Finset H :=
  let hash := h content
  if hash ∈ st then (true, st) else (false, insert hash st)

/-- Run a sequence of is_duplicate calls from a given hash-set state,
collecting the returned flags. -/
def dedupGo {H : Type} [DecidableEq H] (h : List Char → H) (st : Finset H) :
    List (List Char) → List Bool
  | [] => []
  | c :: rest =>
      let r := isDuplicate h st c
      r.1 :: dedupGo h r.2 rest

/-- Run a sequence of is_duplicate calls on a fresh DocumentProcessor
(empty hash set). -/
def dedupResults {H : Type} [DecidableEq H] (h : List Char → H)
    (calls : List (List Char)) : List Bool :=
  dedupGo h ∅ calls

/-- Reference model of the deduplicator that tracks the raw contents
seen so far instead of their hashes. -/
def dedupSpecGo (seen : Finset (List Char)) : List (List Char) → List Bool
  | [] => []
  | c :: rest => decide (c ∈ seen) :: dedupSpecGo (insert c seen) rest

theorem dedupGo_eq_spec {H : Type} [DecidableEq H] (h : List Char → H)
    (hinj : Function.Injective h) :
    ∀ (calls : List (List Char)) (seen : Finset (List Char)),
      dedupGo h (seen.image h) calls = dedupSpecGo seen calls := by
  intro calls
  induction calls with
  | nil => intro seen; rfl
  | cons c rest ih =>
      intro seen
      have hmem : (h c ∈ seen.image h) ↔ c ∈ seen := by
        constructor
        · intro hx
          obtain ⟨a, ha, hae⟩ := Finset.mem_image.mp hx
          exact hinj hae ▸ ha
        · intro hx; exact Finset.mem_image_of_mem h hx
      by_cases hc : c ∈ seen
      · have h1 : h c ∈ seen.image h := hmem.mpr hc
        have hins : insert c seen = seen := Finset.insert_eq_self.mpr hc
        simp only [dedupGo, dedupSpecGo, isDuplicate, if_pos h1, decide_eq_true hc, hins]
        rw [ih seen]
      · have h1 : h c ∉ seen.image h := fun hx => hc (hmem.mp hx)
        simp only [dedupGo, dedupSpecGo, isDuplicate, if_neg h1]
        rw [show decide (c ∈ seen) = false from decide_eq_false hc]
        rw [show insert (h c) (seen.image h) = (insert c seen).image h from
          (Finset.image_insert h c seen).symm]
        rw [ih (insert c seen)]

theorem dedupSpecGo_getD :
    ∀ (calls : List (List Char)) (seen : Finset (List Char)) (i : Nat), i < calls.length →
      (dedupSpecGo seen calls).getD i false
        = decide (calls.getD i [] ∈ seen ∨ calls.getD i [] ∈ calls.take i) := by
  intro calls
  induction calls with
  | nil => intro seen i hi; simp at hi
  | cons c rest ih =>
      intro seen i hi
      cases i with
      | zero => simp [dedupSpecGo]
      | succ j =>
          have hj : j < rest.length := by simpa using hi
          simp only [dedupSpecGo, List.getD_cons_succ, List.take_succ_cons]
          rw [ih (insert c seen) j hj]
          have : (rest.getD j [] ∈ insert c seen ∨ rest.getD j [] ∈ rest.take j)
              ↔ (rest.getD j [] ∈ seen ∨ rest.getD j [] ∈ c :: rest.take j) := by
            simp only [Finset.mem_insert, List.mem_cons]
            tauto
          exact decide_eq_decide.mpr this

/-- Claim C8: over any sequence of is_duplicate calls with an injective
(collision-free) content hash, the call at position i returns true
exactly when its content already occurred at an earlier position; in
particular the first call with a given content returns false and every
subsequent call with identical content returns true. -/
theorem C8_thm {H : Type} [DecidableEq H] (h : List Char → H)
    (hinj : Function.Injective h) (calls : List (List Char)) (i : Nat)
    (hi : i < calls.length) :
    ((dedupResults h calls).getD i false = true ↔ calls.getD i [] ∈ calls.take i) := by
  have h0 : dedupResults h calls = dedupSpecGo ∅ calls := by
    have := dedupGo_eq_spec h hinj calls ∅
    rwa [Finset.image_empty] at this
  rw [h0, dedupSpecGo_getD calls ∅ i hi]
  simp

/-- Witness for C8_thm: with the identity hash, the third call repeats
the first content and is reported a duplicate. -/
theorem C8_witness :
    ((dedupResults id [("doc one").data, ("doc two").data, ("doc one").data]).getD 2 false = true
      ↔ ([("doc one").data, ("doc two").data, ("doc one").data]).getD 2 []
          ∈ ([("doc one").data, ("doc two").data, ("doc one").data]).take 2) :=
  C8_thm id Function.injective_id _ 2 (by decide)

end KMS

namespace KMS

/-! ### Embedding of the chunking strategies of document_processor.py -/

/-- Tag recording which strategy produced a chunk. -/
inductive Strategy where
  | recursiveS
  | semanticS
  | hybridS
deriving DecidableEq

/-- A chunk as produced by the chunking strategies: its content, the
metadata keys chunk_index, chunk_size and chunking_strategy, and the
triple hashed into chunk_id (filename, index, first fifty characters of
the content at hash time). -/
structure PChunk where
  content : List Char
  chunk_index : Nat
  chunk_size_meta : Nat
  strategy : Strategy
  chunk_id_src : List Char × Nat × List Char
deriving DecidableEq

/-- Test whether the pattern is a leading segment of the string. -/
def begWith : List Char → List Char → Bool
  | [], _ => true
  | _ :: _, [] => false
  | p :: ps, c :: cs => p = c && begWith ps cs

/-- Helper for splitOnSep, accumulating the current piece reversed; the
fuel argument bounds the recursion by the string length (each step
consumes at least one character, so fuel equal to the length is never
exhausted and the fallback equation is unreachable). -/
def splitOnSepGo (sep : List Char) : Nat → List Char → List Char → List (List Char)
  | _, [], acc => [acc.reverse]
  | 0, s, acc => [acc.reverse ++ s]
  | fuel + 1, c :: rest, acc =>
      if begWith sep (c :: rest) ∧ sep ≠ [] then
        acc.reverse :: splitOnSepGo sep fuel ((c :: rest).drop sep.length) []
      else
        splitOnSepGo sep fuel rest (c :: acc)

/-- Python str.split with a non-empty separator: non-overlapping
occurrences scanned left to right, keeping empty pieces. -/
def splitOnSep (sep s : List Char) : List (List Char) := splitOnSepGo sep s.length s []

/-- The paragraph separator, a double line break. -/
def nl2 : List Char := ['\n', '\n']

/-- Python slice s[-k:] for k greater than zero takes the last k
characters; for k equal to zero it is the whole string. -/
def pyTakeLast (k : Nat) (s : List Char) : List Char :=
  if k = 0 then s else s.drop (s.length - k)

/-- Build one chunk of SemanticChunker: the stored content is the
stripped buffer while chunk_size and the chunk_id hash input use the
unstripped buffer. -/
def mkSemChunk (filename cur : List Char) (idx : Nat) : PChunk :=
  { content := stripWs cur, chunk_index := idx, chunk_size_meta := cur.length,
    strategy := .semanticS, chunk_id_src := (filename, idx, cur.take 50) }

/-- The paragraph loop of SemanticChunker.chunk_text: emit the buffer
when the next paragraph would overflow chunk_size, seeding the new
buffer with the trailing chunk_overlap characters of the old one. -/
def semanticGo (csize overlap : Nat) (filename : List Char) :
    List (List Char) → List Char → Nat → List PChunk
  | [], cur, idx => if cur ≠ [] then [mkSemChunk filename cur idx] else []
  | p :: ps, cur, idx =>
      if csize < cur.length + p.length ∧ cur ≠ [] then
        mkSemChunk filename cur idx ::
          semanticGo csize overlap filename ps
            ((if overlap < cur.length then pyTakeLast overlap cur else cur) ++ nl2 ++ p) (idx + 1)
      else
        semanticGo csize overlap filename ps
          (if cur ≠ [] then cur ++ nl2 ++ p else p) idx

/-- The paragraph list of SemanticChunker: split on double line breaks,
strip each piece, keep the non-empty ones. -/
def paragraphsOf (text : List Char) : List (List Char) :=
  ((splitOnSep nl2 text).map stripWs).filter (fun p => p ≠ [])

/-- SemanticChunker.chunk_text. -/
def semanticChunkText (csize overlap : Nat) (filename text : List Char) : List PChunk :=
  semanticGo csize overlap filename (paragraphsOf text) [] 0

/-- RecursiveChunker.chunk_text: the underlying text splitter is the
external langchain RecursiveCharacterTextSplitter, taken here as a
parameter; each resulting piece is wrapped with its enumeration index. -/
def recursiveChunkText (split : List Char → List (List Char))
    (filename text : List Char) : List PChunk :=
  (split text).enum.map fun p =>
    { content := p.2, chunk_index := p.1, chunk_size_meta := p.2.length,
      strategy := .recursiveS, chunk_id_src := (filename, p.1, p.2.take 50) }

/-- Retag a chunk as produced by the hybrid strategy, as the metadata
update in HybridChunker.chunk_text. -/
def retagHybrid (c : PChunk) : PChunk := { c with strategy := .hybridS }

/-- HybridChunker.chunk_text: semantic chunking first, re-splitting any
chunk whose content length exceeds chunk_size times 1.5 with the
recursive chunker on its own metadata.  The Python float comparison
len(content) > chunk_size * 1.5 is exact, so it is embedded as the
equivalent integer comparison chunk_size * 3 < len(content) * 2. -/
def hybridChunkText (csize overlap : Nat) (split : List Char → List (List Char))
    (filename text : List Char) : List PChunk :=
  (semanticChunkText csize overlap filename text).flatMap fun c =>
    if csize * 3 < c.content.length * 2 then
      (recursiveChunkText split filename c.content).map retagHybrid
    else
      [retagHybrid c]

/-- The integer oversize test of hybridChunkText agrees with the Python
float comparison read over the rationals. -/
theorem oversize_iff (csize len : Nat) :
    (csize * 3 < len * 2) ↔ ((len : ℚ) > (csize : ℚ) * (3/2)) := by
  rw [gt_iff_lt, show ((csize : ℚ) * (3/2)) = (((csize * 3 : Nat) : ℚ)) / 2 by push_cast; ring,
    div_lt_iff (by norm_num : (0:ℚ) < 2)]
  exact_mod_cast Iff.rfl

end KMS

namespace KMS

/-- Cut a string into consecutive pieces of at most csize characters;
the first argument is fuel bounding the recursion by the string length. -/
def chunkEveryGo (csize : Nat) : Nat → List Char → List (List Char)
  | 0, _ => []
  | _ + 1, [] => []
  | fuel + 1, c :: rest => (c :: rest).take csize :: chunkEveryGo csize fuel ((c :: rest).drop csize)

/-- Character-level cut into csize-sized pieces. -/
def chunkEvery (csize : Nat) (s : List Char) : List (List Char) :=
  chunkEveryGo csize s.length s

/-- The separator hierarchy of RecursiveChunker: paragraph break, line
break, space; the final character level is the empty-separator stage. -/
def defaultSeps : List (List Char) := [['\n', '\n'], ['\n'], [' ']]

/-- Modelled from the spec: the text splitter used by RecursiveChunker
is the external langchain RecursiveCharacterTextSplitter, whose code is
not under src.  The spec describes it as splitting on a separator
hierarchy (paragraph break, line break, space, character), trying the
coarsest separator first, recursing into oversized pieces with the
next-finer separator, and producing pieces of length at most
chunk_size; the character stage cuts into chunk_size pieces. -/
def specSplit (csize : Nat) : List (List Char) → List Char → List (List Char)
  | [], text =>
      if text = [] then []
      else if text.length ≤ csize then [text]
      else chunkEvery csize text
  | sep :: rest, text =>
      if text = [] then []
      else if text.length ≤ csize then [text]
      else ((splitOnSep sep text).filter (fun p => p ≠ [])).flatMap
            (fun piece => if piece.length ≤ csize then [piece] else specSplit csize rest piece)

theorem chunkEveryGo_le (csize : Nat) :
    ∀ (fuel : Nat) (s : List Char), ∀ p ∈ chunkEveryGo csize fuel s, p.length ≤ csize := by
  intro fuel
  induction fuel with
  | zero => intro s p hp; simp [chunkEveryGo] at hp
  | succ n ih =>
      intro s p hp
      cases s with
      | nil => simp [chunkEveryGo] at hp
      | cons c rest =>
          simp only [chunkEveryGo, List.mem_cons] at hp
          rcases hp with h | h
          · subst h
            simpa using List.length_take_le csize (c :: rest)
          · exact ih _ p h

/-- Every piece produced by the modelled splitter has length at most
chunk_size, as the spec asserts of the external splitter. -/
theorem specSplit_le (csize : Nat) :
    ∀ (seps : List (List Char)) (text : List Char),
      ∀ p ∈ specSplit csize seps text, p.length ≤ csize := by
  intro seps
  induction seps with
  | nil =>
      intro text p hp
      simp only [specSplit] at hp
      split at hp
      · simp at hp
      · split at hp
        · next hle => simp at hp; exact hp ▸ hle
        · exact chunkEveryGo_le csize _ _ p hp
  | cons sep rest ih =>
      intro text p hp
      simp only [specSplit] at hp
      split at hp
      · simp at hp
      · split at hp
        · next hle => simp at hp; exact hp ▸ hle
        · rw [List.mem_flatMap] at hp
          obtain ⟨piece, _, hmem⟩ := hp
          by_cases hpl : piece.length ≤ csize
          · rw [if_pos hpl] at hmem; simp at hmem; exact hmem ▸ hpl
          · rw [if_neg hpl] at hmem; exact ih piece p hmem

end KMS

namespace KMS

theorem recursive_indices (split : List Char → List (List Char)) (fname text : List Char) :
    (recursiveChunkText split fname text).map (fun c => c.chunk_index)
      = List.range (split text).length := by
  unfold recursiveChunkText
  rw [List.map_map]
  exact List.enum_map_fst _

theorem semanticGo_indices (csize overlap : Nat) (fname : List Char) :
    ∀ (ps : List (List Char)) (cur : List Char) (idx : Nat),
      (semanticGo csize overlap fname ps cur idx).map (fun c => c.chunk_index)
        = List.range' idx (semanticGo csize overlap fname ps cur idx).length := by
  intro ps
  induction ps with
  | nil =>
      intro cur idx
      by_cases h : cur = []
      · simp [semanticGo, h]
      · simp [semanticGo, h, mkSemChunk, List.range'_succ]
  | cons p ps ih =>
      intro cur idx
      by_cases h : csize < cur.length + p.length ∧ cur ≠ []
      · simp only [semanticGo, if_pos h, List.map_cons, List.length_cons, List.range'_succ]
        exact congrArg₂ List.cons rfl (ih _ _)
      · simp only [semanticGo, if_neg h]
        exact ih _ _

theorem semantic_indices (csize overlap : Nat) (fname text : List Char) :
    (semanticChunkText csize overlap fname text).map (fun c => c.chunk_index)
      = List.range (semanticChunkText csize overlap fname text).length := by
  rw [List.range_eq_range']
  exact semanticGo_indices csize overlap fname _ [] 0

theorem hybrid_indices (csize overlap : Nat) (split : List Char → List (List Char))
    (fname text : List Char) :
    (hybridChunkText csize overlap split fname text).map (fun c => c.chunk_index)
      = (semanticChunkText csize overlap fname text).flatMap
          (fun c => if csize * 3 < c.content.length * 2
            then List.range (split c.content).length else [c.chunk_index]) := by
  unfold hybridChunkText
  rw [List.map_flatMap]
  have hfg : (fun c => ((if csize * 3 < c.content.length * 2
        then (recursiveChunkText split fname c.content).map retagHybrid
        else [retagHybrid c]).map (fun d => d.chunk_index)))
      = (fun c => if csize * 3 < c.content.length * 2
        then List.range (split c.content).length else [c.chunk_index]) := by
    funext c
    split
    · rw [List.map_map]
      exact recursive_indices split fname c.content
    · rfl
  rw [hfg]

/-- Claim C2, amended: Recursive and Semantic assign chunk_index in
emission order, zero-based and strictly increasing (the index sequence
is the initial segment of the naturals); Hybrid keeps the semantic
index of every kept chunk and restarts numbering from zero inside each
recursive re-split, so its index sequence over a document need not be
increasing. -/
theorem C2_amended_thm (csize overlap : Nat) (split : List Char → List (List Char))
    (fname text : List Char) :
    ((recursiveChunkText split fname text).map (fun c => c.chunk_index)
        = List.range (split text).length)
    ∧ ((semanticChunkText csize overlap fname text).map (fun c => c.chunk_index)
        = List.range (semanticChunkText csize overlap fname text).length)
    ∧ ((hybridChunkText csize overlap split fname text).map (fun c => c.chunk_index)
        = (semanticChunkText csize overlap fname text).flatMap
            (fun c => if csize * 3 < c.content.length * 2
              then List.range (split c.content).length else [c.chunk_index])) :=
  ⟨recursive_indices split fname text, semantic_indices csize overlap fname text,
    hybrid_indices csize overlap split fname text⟩

/-- Input on which the hybrid strategy emits non-monotone indices: a
one-character paragraph followed by a sixteen-hundred-character one. -/
def c2Text : List Char := 'a' :: '\n' :: '\n' :: List.replicate 1600 'b'

set_option maxRecDepth 20000 in
/-- Claim C2, counterexample: with default chunk size and overlap, the
hybrid strategy on c2Text emits chunk_index sequence 0, 0, 1, 2, which
is not strictly increasing, refuting the claim for Hybrid. -/
theorem C2_counterexample :
    ((hybridChunkText 1000 200 (specSplit 1000 defaultSeps) (("f").data) c2Text).map
        (fun c => c.chunk_index) = [0, 0, 1, 2])
    ∧ ¬ List.Chain' (· < ·)
        ((hybridChunkText 1000 200 (specSplit 1000 defaultSeps) (("f").data) c2Text).map
          (fun c => c.chunk_index)) := by
  have h : (hybridChunkText 1000 200 (specSplit 1000 defaultSeps) (("f").data) c2Text).map
      (fun c => c.chunk_index) = [0, 0, 1, 2] := by decide
  refine ⟨h, ?_⟩
  rw [h]
  simp [List.chain'_cons]

end KMS

namespace KMS

theorem snd_mem_of_mem_enumFrom {α : Type} :
    ∀ (l : List α) (n : Nat) (p : Nat × α), p ∈ l.enumFrom n → p.2 ∈ l := by
  intro l
  induction l with
  | nil => intro n p hp; simp [List.enumFrom] at hp
  | cons a rest ih =>
      intro n p hp
      simp only [List.enumFrom, List.mem_cons] at hp
      rcases hp with h | h
      · subst h; exact List.mem_cons_self _ _
      · exact List.mem_cons_of_mem a (ih (n + 1) p h)

theorem content_mem_of_mem_recursive (split : List Char → List (List Char))
    (fname text : List Char) :
    ∀ c ∈ recursiveChunkText split fname text, c.content ∈ split text := by
  intro c hc
  unfold recursiveChunkText at hc
  obtain ⟨p, hp, rfl⟩ := List.mem_map.mp hc
  exact snd_mem_of_mem_enumFrom (split text) 0 p hp

/-- Claim C7: when the underlying recursive splitter produces pieces of
length at most chunk_size (as the spec asserts of the external
splitter), every chunk emitted by the hybrid strategy has content
length at most chunk_size times 1.5; moreover every semantic chunk not
exceeding that bound is kept as-is (retagged hybrid) in the output. -/
theorem C7_thm (csize overlap : Nat) (split : List Char → List (List Char))
    (fname text : List Char)
    (hsplit : ∀ t, ∀ p ∈ split t, p.length ≤ csize) :
    (∀ c ∈ hybridChunkText csize overlap split fname text,
        (c.content.length : ℚ) ≤ (csize : ℚ) * (3/2))
    ∧ (∀ c ∈ semanticChunkText csize overlap fname text,
        ¬ (csize * 3 < c.content.length * 2) →
          retagHybrid c ∈ hybridChunkText csize overlap split fname text) := by
  constructor
  · intro c hc
    unfold hybridChunkText at hc
    rw [List.mem_flatMap] at hc
    obtain ⟨s, _, hmem⟩ := hc
    by_cases hov : csize * 3 < s.content.length * 2
    · rw [if_pos hov] at hmem
      obtain ⟨r, hr, rfl⟩ := List.mem_map.mp hmem
      have h1 : r.content.length ≤ csize :=
        hsplit s.content r.content (content_mem_of_mem_recursive split fname s.content r hr)
      have h2 : ((retagHybrid r).content.length : ℚ) ≤ (csize : ℚ) := by
        exact_mod_cast h1
      have h3 : (0:ℚ) ≤ (csize : ℚ) := by positivity
      linarith
    · rw [if_neg hov] at hmem
      rw [List.mem_singleton] at hmem
      subst hmem
      have h1 : s.content.length * 2 ≤ csize * 3 := Nat.not_lt.mp hov
      have h2 : ((s.content.length : ℚ)) * 2 ≤ (csize : ℚ) * 3 := by exact_mod_cast h1
      have : ((retagHybrid s).content.length : ℚ) = (s.content.length : ℚ) := rfl
      rw [this]
      linarith
  · intro c hc hno
    unfold hybridChunkText
    rw [List.mem_flatMap]
    exact ⟨c, hc, by rw [if_neg hno]; exact List.mem_singleton_self _⟩

/-- Witness for C7_thm: the modelled splitter satisfies the piece bound,
and on a small document the single hybrid chunk obeys the 1.5 bound. -/
theorem C7_witness :
    (((hybridChunkText 1000 200 (specSplit 1000 defaultSeps) (("f").data)
          (("hello world").data)).headD
        ⟨[], 0, 0, Strategy.semanticS, ([], 0, [])⟩).content.length : ℚ)
      ≤ (1000 : ℚ) * (3/2) :=
  (C7_thm 1000 200 (specSplit 1000 defaultSeps) (("f").data) (("hello world").data)
      (fun t => specSplit_le 1000 defaultSeps t)).1 _ (by decide)

end KMS

namespace KMS

/-! ### Embedding of llm_service.py context assembly -/

/-- The sentence separator used by _intelligent_truncate. -/
def dotSp : List Char := ['.', ' ']

/-- The ellipsis appended after truncation. -/
def dots3 : List Char := ['.', '.', '.']

/-- Python slice s[:k] for an integer k: a negative k counts from the
end of the string. -/
def pyTakeTo (s : List Char) (k : Int) : List Char :=
  if k < 0 then s.take ((s.length : Int) + k).toNat else s.take k.toNat

/-- The sentence loop of _intelligent_truncate: append whole sentences
(with the separator restored) while the result stays within the budget
minus three characters reserved for the ellipsis. -/
def truncGo (maxLength : Int) : List (List Char) → List Char → List Char
  | [], acc => acc
  | s :: rest, acc =>
      if ((acc ++ s ++ dotSp).length : Int) ≤ maxLength - 3 then
        truncGo maxLength rest (acc ++ s ++ dotSp)
      else acc

/-- _intelligent_truncate: text within the budget is returned whole;
otherwise whole sentences split on the dot-space boundary are kept
while they fit, falling back to a hard character cut, and the ellipsis
is appended. -/
def intelligentTruncate (text : List Char) (maxLength : Int) : List Char :=
  if (text.length : Int) ≤ maxLength then text
  else
    let tr := truncGo maxLength (splitOnSep dotSp text) []
    if tr ≠ [] then stripWs tr ++ dots3
    else pyTakeTo text (maxLength - 3) ++ dots3

/-- One assembled context entry: the one-based source number used in
the Source prefix of the f-string, and the included text. -/
structure CtxEntry where
  srcIdx : Nat
  text : List Char
deriving DecidableEq

/-- The context-assembly loop of _process_query: skip empty contents,
append chunks in rank order while they fit the character budget; at the
first overflow include an intelligently truncated version only when
more than 200 characters of budget remain, then stop either way. -/
def assembleGo (maxChars : Nat) : Nat → Nat → List (List Char) → List CtxEntry
  | _, _, [] => []
  | total, i, c :: rest =>
      if c = [] then assembleGo maxChars total (i + 1) rest
      else if maxChars < total + c.length then
        if 200 < maxChars - total then
          [⟨i + 1, intelligentTruncate c ((maxChars : Int) - (total : Int))⟩]
        else []
      else ⟨i + 1, c⟩ :: assembleGo maxChars (total + c.length) (i + 1) rest

/-- Context assembly of _process_query with its hard-coded budget of
3000 characters. -/
def assembleContexts (docs : List (List Char)) : List CtxEntry :=
  assembleGo 3000 0 0 docs

/-- First document of the C5 counterexample: 2900 characters. -/
def c5Doc1 : List Char := List.replicate 2900 'a'

/-- Second document of the C5 counterexample: 300 characters, which
overflow the remaining budget of 100. -/
def c5Doc2 : List Char := List.replicate 300 'b'

/-- Claim C5, counterexample: the second chunk overflows the budget but
only 100 characters remain, which is not above 200, so the chunk is
dropped entirely instead of being truncated and included with an
ellipsis as the claim states. -/
theorem C5_counterexample :
    3000 < c5Doc1.length + c5Doc2.length
    ∧ assembleContexts [c5Doc1, c5Doc2] = [⟨1, c5Doc1⟩] := by
  have n1 : c5Doc1 ≠ [] := by rw [c5Doc1, Ne, List.replicate_eq_nil_iff]; omega
  have n2 : c5Doc2 ≠ [] := by rw [c5Doc2, Ne, List.replicate_eq_nil_iff]; omega
  have e1 : c5Doc1.length = 2900 := by rw [c5Doc1]; exact List.length_replicate _ _
  have e2 : c5Doc2.length = 300 := by rw [c5Doc2]; exact List.length_replicate _ _
  constructor
  · omega
  · unfold assembleContexts
    simp only [assembleGo, n1, n2, e1, e2]
    norm_num

theorem assembleGo_spec (maxChars : Nat) :
    ∀ (pre : List (List Char)) (total i : Nat) (c : List Char) (post : List (List Char)),
      (∀ p ∈ pre, p ≠ []) → c ≠ [] →
      total + (pre.map List.length).sum ≤ maxChars →
      maxChars < total + (pre.map List.length).sum + c.length →
      assembleGo maxChars total i (pre ++ c :: post)
        = (pre.enumFrom i).map (fun p => ⟨p.1 + 1, p.2⟩)
          ++ (if 200 < maxChars - (total + (pre.map List.length).sum) then
                [⟨pre.length + i + 1,
                  intelligentTruncate c
                    ((maxChars : Int) - ((total + (pre.map List.length).sum : Nat) : Int))⟩]
              else []) := by
  intro pre
  induction pre with
  | nil =>
      intro total i c post hpre hc hfit hover
      simp only [List.map_nil, List.sum_nil, Nat.add_zero] at hfit hover ⊢
      simp only [List.nil_append, List.enumFrom_nil, List.map_nil, List.length_nil,
        Nat.zero_add]
      rw [assembleGo, if_neg hc, if_pos hover]
      try rfl
  | cons p pre ih =>
      intro total i c post hpre hc hfit hover
      have hp : p ≠ [] := hpre p (List.mem_cons_self _ _)
      have hsum : ((p :: pre).map List.length).sum = p.length + (pre.map List.length).sum := by
        simp
      rw [hsum] at hfit hover
      have hnof : ¬ (maxChars < total + p.length) := by omega
      simp only [List.cons_append]
      rw [assembleGo, if_neg hp, if_neg hnof]
      have ihe := ih (total + p.length) (i + 1) c post
        (fun q hq => hpre q (List.mem_cons_of_mem _ hq)) hc (by omega) (by omega)
      rw [ihe]
      simp only [List.enumFrom_cons, List.map_cons, List.length_cons, hsum]
      have e1 : total + p.length + (pre.map List.length).sum
          = total + (p.length + (pre.map List.length).sum) := by omega
      have e2 : pre.length + (i + 1) + 1 = pre.length + 1 + i + 1 := by omega
      rw [e1, e2]
      try rfl

/-- Claim C5, amended: retrieved chunk contents are appended in rank
order until the 3000-character budget is reached; at the first chunk
that would overflow, the chunk is intelligently truncated (sentence
split with ellipsis) and included only when more than 200 characters of
budget remain, otherwise it is dropped; in both cases assembly stops
and later chunks are never examined. -/
theorem C5_amended_thm (pre : List (List Char)) (c : List Char) (post : List (List Char))
    (hpre : ∀ p ∈ pre, p ≠ []) (hc : c ≠ [])
    (hfit : (pre.map List.length).sum ≤ 3000)
    (hover : 3000 < (pre.map List.length).sum + c.length) :
    assembleContexts (pre ++ c :: post)
      = pre.enum.map (fun p => ⟨p.1 + 1, p.2⟩)
        ++ (if 200 < 3000 - (pre.map List.length).sum then
              [⟨pre.length + 1,
                intelligentTruncate c ((3000 : Int) - (((pre.map List.length).sum : Nat) : Int))⟩]
            else []) := by
  have h := assembleGo_spec 3000 pre 0 0 c post hpre hc (by omega) (by omega)
  simpa [assembleContexts, List.enum] using h

/-- Witness for C5_amended_thm: one fitting 100-character chunk followed
by a 3000-character chunk that is truncated and included, with a later
chunk never examined. -/
theorem C5_amended_witness :
    assembleContexts ([List.replicate 100 'a'] ++ List.replicate 3000 'b' :: [['z']])
      = [List.replicate 100 'a'].enum.map (fun p => ⟨p.1 + 1, p.2⟩)
        ++ (if 200 < 3000 - ([List.replicate 100 'a'].map List.length).sum then
              [⟨[List.replicate 100 'a'].length + 1,
                intelligentTruncate (List.replicate 3000 'b')
                  ((3000 : Int) - ((([List.replicate 100 'a'].map List.length).sum : Nat) : Int))⟩]
            else []) :=
  C5_amended_thm [List.replicate 100 'a'] (List.replicate 3000 'b') [['z']]
    (by intro p hp
        rw [List.mem_singleton] at hp
        subst hp
        rw [Ne, List.replicate_eq_nil_iff]; omega)
    (by rw [Ne, List.replicate_eq_nil_iff]; omega)
    (by simp only [List.map_cons, List.map_nil, List.length_replicate, List.sum_cons,
          List.sum_nil]
        omega)
    (by simp only [List.map_cons, List.map_nil, List.length_replicate, List.sum_cons,
          List.sum_nil]
        omega)

end KMS

namespace KMS

/-! ### Embedding of llm_service.py retry logic and degraded answers -/

/-- Outcome of the retry loop: the returned answer if any, the number of
attempts performed, and the number of one-second pauses slept. -/
structure RetryTrace (R : Type) where
  result : Option R
  attempts : Nat
  sleeps : Nat

/-- The retry loop body of _call_llm_with_retry: the oracle gives the
outcome of each attempt (none for an exception); a failure on the last
allowed attempt is re-raised without sleeping, earlier failures sleep
one second and retry. -/
def retryGo {R : Type} (llm : Nat → Option R) : Nat → Nat → RetryTrace R
  | attempt, 0 =>
      { result := none, attempts := 0, sleeps := 0 }
  | attempt, fuel + 1 =>
      match llm attempt with
      | some r => { result := some r, attempts := 1, sleeps := 0 }
      | none =>
          if fuel = 0 then { result := none, attempts := 1, sleeps := 0 }
          else
            let t := retryGo llm (attempt + 1) fuel
            { result := t.result, attempts := t.attempts + 1, sleeps := t.sleeps + 1 }

/-- _call_llm_with_retry: attempts 0 through max_retries in order. -/
def callLLMWithRetry {R : Type} (llm : Nat → Option R) (maxRetries : Nat) : RetryTrace R :=
  retryGo llm 0 (maxRetries + 1)

/-- A retrieved source document: its content and the source name drawn
from its metadata. -/
structure SrcDoc where
  content : List Char
  source : List Char
deriving DecidableEq

/-- A formatted source document as produced by _format_source_documents. -/
structure FmtDoc where
  content : List Char
  source : List Char
deriving DecidableEq

/-- _format_source_documents: contents longer than 300 characters are
cut to 300 and given an ellipsis. -/
def formatSourceDocuments (docs : List SrcDoc) : List FmtDoc :=
  docs.map fun d =>
    ⟨if 300 < d.content.length then d.content.take 300 ++ dots3 else d.content, d.source⟩

/-- _calculate_enhanced_confidence: retrieval-count base capped at one,
plus one tenth for responses over 200 characters, plus two tenths of
the question-response token overlap, capped at one. -/
def calculateEnhancedConfidence (question : List Char) (docs : List SrcDoc)
    (response : List Char) : ℚ :=
  if docs = [] then 0
  else
    let base := min ((docs.length : ℚ) / 7) 1
    let base := if 200 < response.length then base + 1/10 else base
    let overlap : ℚ :=
      ((tokenSet question ∩ tokenSet response).card : ℚ) / ((tokenSet question).card : ℚ)
    min 1 (base + overlap * (2/10))

/-- The answer record returned by _process_query: response text,
formatted sources and confidence.  Response texts are kept as short
tags for the fixed messages of the source. -/
structure QueryResult where
  response : List Char
  sources : List FmtDoc
  confidence : ℚ

/-- The generation stage of _process_query, parameterised by the
retrieved documents and the per-attempt LLM outcome oracle: an empty
retrieval short-circuits with confidence zero and no sources; an LLM
failure after the retries returns the degraded answer carrying the
first three formatted sources and confidence one half; success returns
the stripped answer, all formatted sources and the enhanced
confidence. -/
def processQueryGen (question : List Char) (docs : List SrcDoc)
    (llm : Nat → Option (List Char)) : QueryResult :=
  if docs = [] then
    { response := ("no relevant information found").data, sources := [], confidence := 0 }
  else
    match (callLLMWithRetry llm 2).result with
    | none =>
        { response := ("found relevant documents but encountered an issue").data,
          sources := formatSourceDocuments (docs.take 3), confidence := 1/2 }
    | some ans =>
        { response := stripWs ans, sources := formatSourceDocuments docs,
          confidence := calculateEnhancedConfidence question docs ans }

/-- Retrieved documents of the C9 counterexample: four documents. -/
def c9Docs : List SrcDoc :=
  [⟨("first doc").data, ("s1").data⟩, ⟨("second doc").data, ("s2").data⟩,
   ⟨("third doc").data, ("s3").data⟩, ⟨("fourth doc").data, ("s4").data⟩]

/-- Claim C9, counterexample: with four retrieved documents and a
generation backend that always fails, the degraded answer does not
carry the (formatted) retrieved documents: it carries only the first
three of the four. -/
theorem C9_counterexample :
    (callLLMWithRetry (fun _ => (none : Option (List Char))) 2).result = none
    ∧ (processQueryGen (("q").data) c9Docs (fun _ => none)).sources
        ≠ formatSourceDocuments c9Docs := by
  constructor
  · rfl
  · decide

/-- Claim C9, amended: when every generation attempt fails, the call is
retried exactly two additional times (three attempts) with a one-second
pause after each failed non-final attempt, and the query returns a
degraded answer carrying the first three retrieved source documents
(formatted) and confidence exactly one half, instead of raising. -/
theorem C9_amended_thm (question : List Char) (docs : List SrcDoc)
    (llm : Nat → Option (List Char)) (hdocs : docs ≠ []) (hfail : ∀ k, llm k = none) :
    (callLLMWithRetry llm 2).attempts = 3
    ∧ (callLLMWithRetry llm 2).sleeps = 2
    ∧ (processQueryGen question docs llm).confidence = 1/2
    ∧ (processQueryGen question docs llm).sources = formatSourceDocuments (docs.take 3) := by
  have hres : callLLMWithRetry llm 2
      = { result := none, attempts := 3, sleeps := 2 } := by
    simp [callLLMWithRetry, retryGo, hfail 0, hfail 1, hfail 2]
  refine ⟨by rw [hres], by rw [hres], ?_, ?_⟩ <;>
    simp [processQueryGen, hdocs, hres]

/-- Witness for C9_amended_thm on concrete documents and the constantly
failing oracle. -/
theorem C9_amended_witness :
    (callLLMWithRetry (fun _ => (none : Option (List Char))) 2).attempts = 3
    ∧ (callLLMWithRetry (fun _ => (none : Option (List Char))) 2).sleeps = 2
    ∧ (processQueryGen (("q").data) c9Docs (fun _ => none)).confidence = 1/2
    ∧ (processQueryGen (("q").data) c9Docs (fun _ => none)).sources
        = formatSourceDocuments (c9Docs.take 3) :=
  C9_amended_thm (("q").data) c9Docs (fun _ => none) (by decide) (fun _ => rfl)

/-! ### Embedding of the response cache of llm_service.py -/

/-- Cache key of get_response: the source hashes the lowercased and
stripped question with md5; the deterministic hash input is recorded as
the key. -/
def generateCacheKey (question : List Char) : List Char := stripWs (lowerStr question)

/-- _get_cached_response: the body of the source is disabled (a comment
says temporarily, for debugging) and always reports a miss, whatever
the cache contents, the key or the store times. -/
def getCachedResponse {R : Type} (cache : List (List Char × R × ℚ)) (key : List Char) :
    Option R :=
  none

/-- _cache_response: store the response with the current time when
query caching is enabled. -/
def cacheResponse {R : Type} (enable : Bool) (cache : List (List Char × R × ℚ))
    (key : List Char) (resp : R) (now : ℚ) : List (List Char × R × ℚ) :=
  if enable then (key, resp, now) :: cache else cache

/-- The cache-check head of get_response: serve the cached value with
the cached flag when the lookup reports a hit, else recompute. -/
def getResponseCached {R : Type} (cache : List (List Char × R × ℚ)) (question : List Char)
    (compute : R) : R × Bool :=
  match getCachedResponse cache (generateCacheKey question) with
  | some r => (r, true)
  | none => (compute, false)

/-- Claim C1: the cache read path is disabled in the source, so even
immediately after an answer is stored under the key of a question, a
second get_response with the same question reports a miss and
recomputes; no call is ever served from the cache.  This contradicts
the claimed cache round-trip. -/
theorem C1_thm {R : Type} (cache : List (List Char × R × ℚ)) (question : List Char)
    (resp compute : R) (now : ℚ) (enable : Bool) :
    getCachedResponse (cacheResponse enable cache (generateCacheKey question) resp now)
        (generateCacheKey question) = none
    ∧ (getResponseCached (cacheResponse enable cache (generateCacheKey question) resp now)
        question compute).2 = false :=
  ⟨rfl, rfl⟩

end KMS

namespace KMS

/-! ### Normalised-whitespace predicates for the idempotence of query
preprocessing -/

/-- Well-formed whitespace: every whitespace character is a single
space, no space opens the string (when the flag is false), no space
follows a space, and no space closes the string. -/
def wsOkAux : Bool → List Char → Bool
  | _, [] => true
  | canSp, c :: rest =>
      if isWs c then canSp && (c = ' ') && !rest.isEmpty && wsOkAux false rest
      else wsOkAux true rest

/-- Well-formed whitespace with no leading space. -/
def wsOk (s : List Char) : Bool := wsOkAux false s

/-- The string has no trailing whitespace character. -/
def noTrailWs : List Char → Bool
  | [] => true
  | [c] => !isWs c
  | _ :: c :: rest => noTrailWs (c :: rest)

theorem noTrailWs_tail (c : Char) (rest : List Char) (h : noTrailWs (c :: rest) = true) :
    noTrailWs rest = true := by
  cases rest with
  | nil => rfl
  | cons d r => simpa [noTrailWs] using h

theorem noTrailWs_ws_head (c : Char) (rest : List Char) (hws : isWs c = true)
    (h : noTrailWs (c :: rest) = true) : rest ≠ [] := by
  cases rest with
  | nil => simp [noTrailWs, hws] at h
  | cons d r => simp

theorem noTrailWs_exists :
    ∀ (s : List Char), noTrailWs s = true → s ≠ [] → ∃ c ∈ s, isWs c = false := by
  intro s
  induction s with
  | nil => simp
  | cons c rest ih =>
      intro h _
      cases rest with
      | nil => exact ⟨c, List.mem_singleton_self c, by simpa [noTrailWs] using h⟩
      | cons d r =>
          obtain ⟨x, hx, hxw⟩ := ih (by simpa [noTrailWs] using h) (by simp)
          exact ⟨x, List.mem_cons_of_mem c hx, hxw⟩

theorem noTrailWs_concat : ∀ (xs : List Char) (c : Char), noTrailWs (xs ++ [c]) = !isWs c := by
  intro xs
  induction xs with
  | nil => intro c; rfl
  | cons x xs ih =>
      intro c
      cases xs with
      | nil => simp [noTrailWs]
      | cons y ys => simpa [noTrailWs] using ih c

theorem collapse_ne_nil :
    ∀ (s : List Char) (p : Bool), (∃ c ∈ s, isWs c = false) → collapseWsAux p s ≠ [] := by
  intro s
  induction s with
  | nil => intro p h; simp at h
  | cons c rest ih =>
      intro p h
      by_cases hw : isWs c = true
      · obtain ⟨x, hx, hxw⟩ := h
        have hxr : x ∈ rest := by
          rcases List.mem_cons.mp hx with rfl | hxr
          · rw [hw] at hxw; exact absurd hxw (by simp)
          · exact hxr
        cases p with
        | true =>
            simp only [collapseWsAux, hw, if_true]
            exact ih true ⟨x, hxr, hxw⟩
        | false => simp [collapseWsAux, hw]
      · simp [collapseWsAux, hw]

theorem collapse_wsOk :
    ∀ (s : List Char) (p : Bool), noTrailWs s = true →
      wsOkAux (!p) (collapseWsAux p s) = true := by
  intro s
  induction s with
  | nil => intro p _; simp [collapseWsAux, wsOkAux]
  | cons c rest ih =>
      intro p h
      by_cases hw : isWs c = true
      · have hrest : rest ≠ [] := noTrailWs_ws_head c rest hw h
        have hnt : noTrailWs rest = true := noTrailWs_tail c rest h
        have hok : wsOkAux false (collapseWsAux true rest) = true := by
          simpa using ih true hnt
        cases p with
        | true => simpa [collapseWsAux, hw] using hok
        | false =>
            have hne : collapseWsAux true rest ≠ [] :=
              collapse_ne_nil rest true (noTrailWs_exists rest hnt hrest)
            have hne' : (collapseWsAux true rest).isEmpty = false := by
              cases hcl : collapseWsAux true rest with
              | nil => exact absurd hcl hne
              | cons a b => rfl
            have hsp : isWs ' ' = true := by decide
            simp [collapseWsAux, hw, wsOkAux, hne', hok, hsp]
      · have hnt : noTrailWs rest = true := noTrailWs_tail c rest h
        have hok : wsOkAux true (collapseWsAux false rest) = true := by
          simpa using ih false hnt
        simp [collapseWsAux, hw, wsOkAux, hok]

theorem dropWhile_ws_head :
    ∀ (l : List Char), l.dropWhile (fun c => isWs c) = [] ∨
      ∃ c r, l.dropWhile (fun c => isWs c) = c :: r ∧ isWs c = false := by
  intro l
  induction l with
  | nil => left; rfl
  | cons c rest ih =>
      by_cases hw : isWs c = true
      · simpa [List.dropWhile_cons, hw] using ih
      · right; exact ⟨c, rest, by simp [List.dropWhile_cons, hw], by simpa using hw⟩

theorem stripWs_spec (s : List Char) :
    stripWs s = [] ∨ ∃ c rest, stripWs s = c :: rest ∧ isWs c = false
      ∧ noTrailWs (c :: rest) = true := by
  rcases dropWhile_ws_head (dropWs s).reverse with hv | ⟨d, w, hv, hd⟩
  · left
    show ((dropWs s).reverse.dropWhile (fun c => isWs c)).reverse = []
    rw [hv]; rfl
  · right
    have hstrip : stripWs s = (d :: w).reverse := by
      show ((dropWs s).reverse.dropWhile (fun c => isWs c)).reverse = _
      rw [hv]
    have hne : stripWs s ≠ [] := by rw [hstrip]; simp
    obtain ⟨c, rest, hcr⟩ := List.exists_cons_of_ne_nil hne
    have htw := List.takeWhile_append_dropWhile (fun c => isWs c) (dropWs s).reverse
    rw [hv] at htw
    have hu : (d :: w).reverse
        ++ ((dropWs s).reverse.takeWhile (fun c => isWs c)).reverse = dropWs s := by
      have h2 := congrArg List.reverse htw
      rw [List.reverse_append, List.reverse_reverse] at h2
      exact h2
    rw [← hstrip, hcr] at hu
    refine ⟨c, rest, hcr, ?_, ?_⟩
    · rcases dropWhile_ws_head s with h0 | ⟨c0, r0, h0, hc0⟩
      · rw [show dropWs s = s.dropWhile (fun c => isWs c) from rfl, h0] at hu
        simp at hu
      · rw [show dropWs s = s.dropWhile (fun c => isWs c) from rfl, h0] at hu
        have hcc : c = c0 := by
          have h3 := congrArg (fun l => List.headD l ' ') hu
          simpa using h3
        rw [hcc]; exact hc0
    · have h4 : noTrailWs (stripWs s) = true := by
        rw [hstrip, List.reverse_cons, noTrailWs_concat]
        simp [hd]
      rw [hcr] at h4
      exact h4

theorem wsOk_head_nonws (c : Char) (rest : List Char)
    (h : wsOkAux false (c :: rest) = true) : isWs c = false := by
  by_cases hw : isWs c = true
  · simp [wsOkAux, hw] at h
  · simpa using hw

theorem wsOk_noTrail : ∀ (s : List Char) (f : Bool), wsOkAux f s = true → noTrailWs s = true := by
  intro s
  induction s with
  | nil => intro f _; rfl
  | cons c rest ih =>
      intro f h
      by_cases hw : isWs c = true
      · simp only [wsOkAux, hw, if_true, Bool.and_eq_true] at h
        obtain ⟨⟨⟨_, _⟩, hne⟩, hok⟩ := h
        cases rest with
        | nil => simp at hne
        | cons d r => simpa [noTrailWs] using ih false hok
      · have h' : wsOkAux true rest = true := by simpa [wsOkAux, hw] using h
        cases rest with
        | nil => simpa [noTrailWs] using hw
        | cons d r => simpa [noTrailWs] using ih true h'

theorem wsOk_mono (s : List Char) (h : wsOkAux false s = true) : wsOkAux true s = true := by
  cases s with
  | nil => rfl
  | cons c rest =>
      by_cases hw : isWs c = true
      · simp [wsOkAux, hw] at h
      · simpa [wsOkAux, hw] using h

theorem collapse_id : ∀ (s : List Char) (b : Bool), wsOkAux b s = true →
    collapseWsAux (!b) s = s := by
  intro s
  induction s with
  | nil => intro b _; rfl
  | cons c rest ih =>
      intro b h
      by_cases hw : isWs c = true
      · simp only [wsOkAux, hw, if_true, Bool.and_eq_true] at h
        obtain ⟨⟨⟨hb, hc⟩, _⟩, hok⟩ := h
        have hc' : c = ' ' := by simpa using hc
        have hb' : b = true := by simpa using hb
        subst hb'
        have := ih false hok
        simp only [Bool.not_true, collapseWsAux, hw, if_true, Bool.false_eq_true, if_false]
        rw [hc']
        simpa using this
      · have h' : wsOkAux true rest = true := by simpa [wsOkAux, hw] using h
        have := ih true h'
        simp only [collapseWsAux, hw, Bool.false_eq_true, if_false]
        simpa using this

theorem stripWs_id (s : List Char) (h : wsOk s = true) : stripWs s = s := by
  cases s with
  | nil => rfl
  | cons c rest =>
      have hhead : isWs c = false := wsOk_head_nonws c rest h
      have hnt : noTrailWs (c :: rest) = true := wsOk_noTrail _ false h
      have h1 : (c :: rest).dropWhile (fun x => isWs x) = c :: rest := by
        simp [List.dropWhile_cons, hhead]
      rcases List.eq_nil_or_concat (c :: rest) with hnil | ⟨L, b, hLb⟩
      · simp at hnil
      · rw [List.concat_eq_append] at hLb
        have hb : isWs b = false := by
          rw [hLb, noTrailWs_concat] at hnt
          simpa using hnt
        have h2 : ((c :: rest).reverse).dropWhile (fun x => isWs x) = (c :: rest).reverse := by
          rw [hLb, List.reverse_append]
          simp [List.dropWhile_cons, hb]
        show (((c :: rest).dropWhile (fun x => isWs x)).reverse.dropWhile
            (fun x => isWs x)).reverse = c :: rest
        rw [h1, h2, List.reverse_reverse]

theorem normWs_wsOk (s : List Char) : wsOk (normWs s) = true := by
  unfold normWs wsOk
  rcases stripWs_spec s with h | ⟨c, rest, h, hc, hnt⟩
  · rw [h]; rfl
  · rw [h]
    have hnt' : noTrailWs rest = true := noTrailWs_tail c rest hnt
    have hok : wsOkAux true (collapseWsAux false rest) = true := by
      simpa using collapse_wsOk rest false hnt'
    simp [collapseWsAux, wsOkAux, hc, hok]

theorem normWs_id (s : List Char) (h : wsOk s = true) : normWs s = s := by
  unfold normWs
  rw [show stripWs s = s from stripWs_id s h]
  simpa using collapse_id s true (wsOk_mono s h)

end KMS

namespace KMS

/-! ### Substring lemmas for the abbreviation-expansion loop -/

theorem substr_app_right {p a : List Char} (b : List Char) (h : p <:+: a) : p <:+: a ++ b := by
  obtain ⟨s, t, hst⟩ := h
  exact ⟨s, t ++ b, by rw [← hst]; simp⟩

theorem substr_self_append (a e : List Char) : e <:+: a ++ ' ' :: e := by
  refine ⟨a ++ [' '], [], ?_⟩
  simp

theorem substr_nil {p : List Char} (h : p <:+: ([] : List Char)) : p = [] := by
  obtain ⟨s, t, hst⟩ := h
  rcases List.append_eq_nil.mp hst with ⟨h1, h2⟩
  exact (List.append_eq_nil.mp h1).2

theorem substr_ne_nil {p a : List Char} (h : p <:+: a) (hp : p ≠ []) : a ≠ [] := by
  intro ha
  subst ha
  exact hp (substr_nil h)

theorem prefix_skip_char :
    ∀ (a : List Char) (x : Char) (b p : List Char), x ∉ p → p <+: a ++ x :: b → p <+: a := by
  intro a
  induction a with
  | nil =>
      intro x b p hx h
      cases p with
      | nil => exact List.nil_prefix
      | cons c p2 =>
          obtain ⟨t, ht⟩ := h
          rw [List.nil_append, List.cons_append] at ht
          injection ht with h1 _
          exact absurd (h1 ▸ List.mem_cons_self c p2) hx
  | cons c a2 ih =>
      intro x b p hx h
      cases p with
      | nil => exact List.nil_prefix
      | cons d p2 =>
          obtain ⟨t, ht⟩ := h
          rw [List.cons_append, List.cons_append] at ht
          injection ht with h1 h2
          subst h1
          have hp2 : p2 <+: a2 :=
            ih x b p2 (fun hm => hx (List.mem_cons_of_mem _ hm)) ⟨t, h2⟩
          obtain ⟨t2, ht2⟩ := hp2
          exact ⟨t2, by rw [List.cons_append, ht2]⟩

theorem substr_cons_elim {p : List Char} {c : Char} {l : List Char} (h : p <:+: c :: l) :
    p <+: c :: l ∨ p <:+: l := by
  obtain ⟨s, t, hst⟩ := h
  cases s with
  | nil => exact Or.inl ⟨t, by simpa using hst⟩
  | cons d s2 =>
      rw [List.cons_append, List.cons_append] at hst
      injection hst with _ h2
      exact Or.inr ⟨s2, t, h2⟩

theorem substr_split_char :
    ∀ (a : List Char) (x : Char) (b p : List Char), p ≠ [] → x ∉ p →
      p <:+: a ++ x :: b → p <:+: a ∨ p <:+: b := by
  intro a
  induction a with
  | nil =>
      intro x b p hp hx h
      rw [List.nil_append] at h
      rcases substr_cons_elim h with hpre | htail
      · cases p with
        | nil => exact absurd rfl hp
        | cons d p2 =>
            obtain ⟨t, ht⟩ := hpre
            rw [List.cons_append] at ht
            injection ht with h1 _
            exact absurd (h1 ▸ List.mem_cons_self d p2) hx
      · exact Or.inr htail
  | cons c a2 ih =>
      intro x b p hp hx h
      rw [List.cons_append] at h
      rcases substr_cons_elim h with hpre | htail
      · have hpc : p <+: c :: a2 := by
          have h2 : p <+: (c :: a2) ++ x :: b := by
            rw [List.cons_append]
            exact hpre
          exact prefix_skip_char (c :: a2) x b p hx h2
        obtain ⟨t, ht⟩ := hpc
        exact Or.inl ⟨[], t, by simpa using ht⟩
      · rcases ih x b p hp hx htail with h1 | h1
        · obtain ⟨s, t, hst⟩ := h1
          exact Or.inl ⟨c :: s, t, by simp [← hst]⟩
        · exact Or.inr h1

end KMS

namespace KMS

theorem wsOk_append_exp (e : List Char) (he : wsOkAux false e = true) (hene : e ≠ []) :
    ∀ (a : List Char) (f : Bool), wsOkAux f a = true → a ≠ [] →
      wsOkAux f (a ++ ' ' :: e) = true := by
  intro a
  induction a with
  | nil => intro f _ h; exact absurd rfl h
  | cons c rest ih =>
      intro f hok _
      have hsp : isWs ' ' = true := by decide
      cases rest with
      | nil =>
          by_cases hw : isWs c = true
          · simp [wsOkAux, hw] at hok
          · have hee : e.isEmpty = false := by
              cases e with
              | nil => exact absurd rfl hene
              | cons _ _ => rfl
            simp [wsOkAux, hw, hsp, hee, he]
      | cons d r =>
          by_cases hw : isWs c = true
          · simp only [wsOkAux, hw, if_true, Bool.and_eq_true] at hok
            obtain ⟨⟨⟨hf, hc⟩, _⟩, hok2⟩ := hok
            subst hf
            have hrec := ih false hok2 (by simp)
            simp only [List.cons_append] at hrec ⊢
            rw [wsOkAux, if_pos hw]
            simp [hc, hrec]
          · have hok2 : wsOkAux true (d :: r) = true := by simpa [wsOkAux, hw] using hok
            have hrec := ih true hok2 (by simp)
            simpa [List.cons_append, wsOkAux, hw] using hrec

theorem expandStep_subset {x a : List Char} (p : List Char × List Char) (h : x <:+: a) :
    x <:+: expandStep a p := by
  unfold expandStep
  split
  · exact substr_app_right _ h
  · exact h

theorem expandStep_exp {a : List Char} (p : List Char × List Char) (h : p.1 <:+: a) :
    p.2 <:+: expandStep a p := by
  unfold expandStep
  split
  · exact substr_self_append a p.2
  · next hcond =>
      by_cases h2 : p.2 <:+: a
      · exact h2
      · exact absurd ⟨h, h2⟩ hcond

theorem expandStep_not_new {x a : List Char} (p : List Char × List Char)
    (hx : ¬ x <:+: a) (hne : x ≠ []) (hsp : ' ' ∉ x) (hxe : ¬ x <:+: p.2) :
    ¬ x <:+: expandStep a p := by
  unfold expandStep
  split
  · intro hmem
    rcases substr_split_char a ' ' p.2 x hne hsp hmem with h1 | h1
    · exact hx h1
    · exact hxe h1
  · exact hx

theorem expandStep_wsOk {a : List Char} (p : List Char × List Char)
    (ha : wsOk a = true) (hp1 : p.1 ≠ []) (hp2 : p.2 ≠ []) (hw : wsOk p.2 = true) :
    wsOk (expandStep a p) = true := by
  unfold expandStep
  split
  · next hcond =>
      have hane : a ≠ [] := substr_ne_nil hcond.1 hp1
      exact wsOk_append_exp p.2 hw hp2 a false ha hane
  · exact ha

theorem foldl_expand_wsOk :
    ∀ (L : List (List Char × List Char)) (a : List Char),
      (∀ p ∈ L, p.1 ≠ [] ∧ p.2 ≠ [] ∧ wsOk p.2 = true) → wsOk a = true →
      wsOk (L.foldl expandStep a) = true := by
  intro L
  induction L with
  | nil => intro a _ h; exact h
  | cons p rest ih =>
      intro a hL h
      simp only [List.foldl_cons]
      have hp := hL p (List.mem_cons_self _ _)
      exact ih _ (fun q hq => hL q (List.mem_cons_of_mem _ hq))
        (expandStep_wsOk p h hp.1 hp.2.1 hp.2.2)

theorem foldl_expand_mono :
    ∀ (L : List (List Char × List Char)) (a x : List Char),
      x <:+: a → x <:+: L.foldl expandStep a := by
  intro L
  induction L with
  | nil => intro a x h; exact h
  | cons p rest ih =>
      intro a x h
      simp only [List.foldl_cons]
      exact ih _ x (expandStep_subset p h)

theorem foldl_expand_not :
    ∀ (L : List (List Char × List Char)) (a x : List Char),
      ¬ x <:+: a → x ≠ [] → ' ' ∉ x → (∀ p ∈ L, ¬ x <:+: p.2) →
      ¬ x <:+: L.foldl expandStep a := by
  intro L
  induction L with
  | nil => intro a x h _ _ _; exact h
  | cons p rest ih =>
      intro a x h hne hsp hno
      simp only [List.foldl_cons]
      exact ih _ x (expandStep_not_new p h hne hsp (hno p (List.mem_cons_self _ _)))
        hne hsp (fun q hq => hno q (List.mem_cons_of_mem _ hq))

theorem foldl_expand_post :
    ∀ (L : List (List Char × List Char)) (a : List Char),
      (∀ p ∈ L, p.1 ≠ []) → (∀ p ∈ L, ' ' ∉ p.1) →
      (∀ p ∈ L, ∀ r ∈ L, ¬ p.1 <:+: r.2) →
      ∀ p ∈ L, p.1 <:+: L.foldl expandStep a → p.2 <:+: L.foldl expandStep a := by
  intro L
  induction L with
  | nil => intro a _ _ _ p hp; simp at hp
  | cons p0 rest ih =>
      intro a h1 hsp hno p hp
      simp only [List.foldl_cons]
      rcases List.mem_cons.mp hp with rfl | hprest
      · by_cases hc : p.1 <:+: a
        · intro _
          exact foldl_expand_mono rest _ p.2 (expandStep_exp p hc)
        · have hstep : expandStep a p = a := by
            unfold expandStep
            rw [if_neg (fun hand => hc hand.1)]
          rw [hstep]
          intro hcontra
          exact absurd hcontra
            (foldl_expand_not rest a p.1 hc (h1 p (List.mem_cons_self _ _))
              (hsp p (List.mem_cons_self _ _))
              (fun r hr => hno p (List.mem_cons_self _ _) r (List.mem_cons_of_mem _ hr)))
      · exact ih _ (fun q hq => h1 q (List.mem_cons_of_mem _ hq))
          (fun q hq => hsp q (List.mem_cons_of_mem _ hq))
          (fun q hq r hr => hno q (List.mem_cons_of_mem _ hq) r (List.mem_cons_of_mem _ hr))
          p hprest

end KMS

namespace KMS

theorem foldl_expand_fixed :
    ∀ (L : List (List Char × List Char)) (q1 : List Char),
      (∀ p ∈ L, p.1 <:+: q1 → p.2 <:+: q1) → L.foldl expandStep q1 = q1 := by
  intro L
  induction L with
  | nil => intro q1 _; rfl
  | cons p rest ih =>
      intro q1 hfix
      simp only [List.foldl_cons]
      have hstep : expandStep q1 p = q1 := by
        unfold expandStep
        rw [if_neg]
        intro hand
        exact hand.2 (hfix p (List.mem_cons_self _ _) hand.1)
      rw [hstep]
      exact ih q1 (fun r hr => hfix r (List.mem_cons_of_mem _ hr))

/-- Claim C10: query normalization is idempotent.  Re-normalizing an
already preprocessed query collapses no further whitespace (the result
is whitespace-normal) and appends no further expansion (whenever an
abbreviation occurs in the result its expansion already does), so the
result is returned unchanged. -/
theorem C10_thm (q : List Char) : preprocessQuery (preprocessQuery q) = preprocessQuery q := by
  have hcond1 : ∀ p ∈ abbreviations, p.1 ≠ [] ∧ p.2 ≠ [] ∧ wsOk p.2 = true := by decide
  have hcond2 : ∀ p ∈ abbreviations, p.1 ≠ [] := fun p hp => (hcond1 p hp).1
  have hcond3 : ∀ p ∈ abbreviations, ' ' ∉ p.1 := by decide
  have hcond4 : ∀ p ∈ abbreviations, ∀ r ∈ abbreviations, ¬ p.1 <:+: r.2 := by decide
  have hq1ok : wsOk (preprocessQuery q) = true :=
    foldl_expand_wsOk abbreviations (normWs q) hcond1 (normWs_wsOk q)
  have hpost : ∀ p ∈ abbreviations,
      p.1 <:+: preprocessQuery q → p.2 <:+: preprocessQuery q :=
    foldl_expand_post abbreviations (normWs q) hcond2 hcond3 hcond4
  show abbreviations.foldl expandStep (normWs (preprocessQuery q)) = preprocessQuery q
  rw [normWs_id _ hq1ok]
  exact foldl_expand_fixed abbreviations (preprocessQuery q) hpost

end KMS
